import Mathlib

/-!
Verification of the causal-model simulation engine used by the
`CausalAbstraction` tutorial notebook (`demos/causal_model_intro.ipynb`).

The notebook defines concrete causal models (the hierarchical-addition model
and a small neural network) and exercises the engine through
`display_forward_pass` (evaluate) and `display_interchange` (interchange).
The engine itself (`causal.causal_model.CausalModel`) is not part of the
sources here, so its data model and operations are modelled from the spec
(sections 3, 4.1-4.6): a DAG of named variables, each computed by a mechanism
of its parents, evaluated in a cached topological order under an optional
simultaneous intervention, with a provenance tag per value.  The concrete
models are translated from the notebook cells.
-/

namespace CausalAbstraction

/-- Values flowing through a causal model: mechanisms in the notebook return
either scalars (digits, floats) or lists of values (`raw_input` returns
`[a, b, c]`).  `F` is the scalar type (`Int` for the hierarchical-addition
model, an opaque type for the neural network's floats). -/
inductive PVal (F : Type) where
  | atom : F → PVal F
  | lst : List (PVal F) → PVal F

instance {F : Type} : Inhabited (PVal F) := ⟨.lst []⟩

/-- Provenance tags, modelled from the spec (§4.6): BASE, DIRECT,
INTERVENED-ONLY and MIXED. -/
inductive Tag where
  | BASE : Tag
  | DIRECT : Tag
  | INTERVENED_ONLY : Tag
  | MIXED : Tag
deriving DecidableEq, Repr, Inhabited

/-- Modelled from the spec (§4.6): the combination rule for a derived,
non-intervened variable from its parents' tags: BASE if all parent tags are
BASE; INTERVENED-ONLY if all parent tags are DIRECT or INTERVENED-ONLY;
MIXED otherwise. -/
def combineTags (ts : List Tag) : Tag :=
  if ts.all (· = Tag.BASE) then Tag.BASE
  else if ts.all (fun t => t = Tag.DIRECT ∨ t = Tag.INTERVENED_ONLY) then Tag.INTERVENED_ONLY
  else Tag.MIXED

/-- Modelled from the spec (§3, §6): an immutable tuple of variable set,
domain per variable (`values`, `none` = unconstrained), parent map,
mechanism map and identifier, together with the topological order cached by
the Graph Validator at construction (§4.1).  Parent and mechanism maps are
total functions on names; a mechanism receives its parents' values in the
declared parent order. -/
structure CausalModel (V : Type) where
  vars : List String
  values : String → Option (List V)
  parents : String → List String
  mechanisms : String → List V → V
  order : List String
  id : String

/-- An Assignment (spec §3 "Run / Assignment"): an ephemeral mapping from
variable name to (value, provenance tag), represented as the association
list produced by the topological walk. -/
abbrev Assignment (V : Type) := List (String × (V × Tag))

/-- Keys of an association list. -/
def keys {β : Type} (l : List (String × β)) : List String := l.map Prod.fst

/-- Value of a variable in an Assignment. -/
def valOf {V : Type} (a : Assignment V) (v : String) : Option V :=
  (List.lookup v a).map Prod.fst

/-- Provenance tag of a variable in an Assignment. -/
def tagOf {V : Type} (a : Assignment V) (v : String) : Option Tag :=
  (List.lookup v a).map Prod.snd

variable {V : Type} [Inhabited V]

/-- Modelled from the spec (§4.3): the per-variable step of the forward
pass.  Given the (partial) assignment so far, presented as a lookup function
`assign`, compute the value and tag of variable `v`:
1. if `v` is intervened, the value is the override and the tag DIRECT;
2. else if `v` is a root, the value comes from `inputs` when present and
   otherwise from the injected random source `rand` (the call-scoped sampler
   draw of §5); the tag is BASE;
3. else the mechanism of `v` is applied to the parents' values in declared
   order, and the tag combines the parents' tags (§4.6). -/
def nodeVal (m : CausalModel V) (inputs : List (String × V)) (ivn : List (String × V))
    (rand : String → V) (assign : String → V × Tag) (v : String) : V × Tag :=
  match List.lookup v ivn with
  | some x => (x, Tag.DIRECT)
  | none =>
    if m.parents v = [] then
      match List.lookup v inputs with
      | some x => (x, Tag.BASE)
      | none => (rand v, Tag.BASE)
    else
      let ps := (m.parents v).map assign
      (m.mechanisms v (ps.map Prod.fst), combineTags (ps.map Prod.snd))

/-- Modelled from the spec (§4.3): the topological walk.  Each step appends
the next variable's (value, tag) pair, computed from the assignment built so
far. -/
def evalFrom (m : CausalModel V) (inputs ivn : List (String × V)) (rand : String → V) :
    List String → Assignment V → Assignment V
  | [], acc => acc
  | v :: rest, acc =>
      evalFrom m inputs ivn rand rest
        (acc ++ [(v, nodeVal m inputs ivn rand (fun p => (List.lookup p acc).getD default) v)])

/-- Forward pass along an explicitly given order (the Evaluator is free to
use any topological order, spec §4.3 "Ordering guarantee"). -/
def evaluateWith (m : CausalModel V) (ord : List String)
    (inputs ivn : List (String × V)) (rand : String → V) : Assignment V :=
  evalFrom m inputs ivn rand ord []

/-- Modelled from the spec (§4.3, §6): `evaluate(inputs, intervention)`,
walking the model's cached topological order.  `rand` is the injected
random source (§5) supplying the draw a root's sampler would make on this
call; it is consulted only for roots with no explicit input and no
override.  Domains (`m.values`) are not enforced: the default mode is
non-strict (§4.3 `DomainViolationError` is an optional strictness mode,
§9 open question). -/
def evaluate (m : CausalModel V) (inputs ivn : List (String × V)) (rand : String → V) :
    Assignment V :=
  evaluateWith m m.order inputs ivn rand

/-- Modelled from the spec (§4.5): the two-phase interchange protocol.
Phase 1: for each target `t` with counterfactual inputs `I_t`, run the fully
independent auxiliary pass `evaluate I_t ∅` and read off `t`'s value.
Phase 2: evaluate the base inputs once under the intervention assembled from
those values. -/
def interchange (m : CausalModel V) (inputs : List (String × V))
    (cfspec : List (String × List (String × V))) (rand : String → V) : Assignment V :=
  let ivn := cfspec.map (fun tc =>
    (tc.1, ((List.lookup tc.1 (evaluate m tc.2 [] rand)).getD default).1))
  evaluate m inputs ivn rand

/-- Construction-time errors, modelled from the spec (§4.1, §7). -/
inductive ConstructError where
  | CycleError : ConstructError
  | UnknownVariableError : ConstructError
  | ArityMismatchError : ConstructError
deriving DecidableEq, Repr

/-- Modelled from the spec (§4.1): one round of Kahn's algorithm — pick the
first remaining variable all of whose parents are already placed. -/
def kahnAux (par : String → List String) :
    Nat → List String → List String → Option (List String)
  | _, [], placed => some placed
  | 0, _ :: _, _ => none
  | fuel + 1, v0 :: rest, placed =>
      match (v0 :: rest).find? (fun v => (par v).all (fun p => placed.contains p)) with
      | none => none
      | some v => kahnAux par fuel ((v0 :: rest).erase v) (placed ++ [v])

/-- Modelled from the spec (§4.1, §6): `CausalModel(...)` construction runs
the Graph Validator, which fails with `CycleError` when the parent relation
admits no topological order (Kahn cycle detection) and otherwise caches the
topological order it produced. -/
def construct (vars : List String) (values : String → Option (List V))
    (parents : String → List String) (mechanisms : String → List V → V)
    (id : String) : Except ConstructError (CausalModel V) :=
  match kahnAux parents vars.length vars [] with
  | none => .error ConstructError.CycleError
  | some ord => .ok ⟨vars, values, parents, mechanisms, ord, id⟩

/-! ### The hierarchical-addition model (notebook cell 4) -/

/-- `DIGITS = list(range(0, 10))` from the notebook. -/
def DIGITS : List Int := (List.range 10).map Int.ofNat

/-- The variable list of the hierarchical-addition model, in notebook
declaration order. -/
def addVariables : List String :=
  ["A", "B", "C", "A+B", "C'", "Y", "raw_input", "raw_output"]

/-- The `values` dict of the notebook: every variable ranges over the
digits except the raw input/output, which are unconstrained (`None`). -/
def addValues : String → Option (List (PVal Int)) := fun v =>
  if v = "raw_input" ∨ v = "raw_output" then none
  else if v ∈ addVariables then some (DIGITS.map PVal.atom) else none

/-- The `parents` dict of the notebook. -/
def addParents : String → List String
  | "A+B" => ["A", "B"]
  | "C'" => ["C"]
  | "Y" => ["A+B", "C'"]
  | "raw_input" => ["A", "B", "C"]
  | "raw_output" => ["Y"]
  | _ => []

/-- The `mechanisms` dict of the notebook, for the derived variables:
`A+B` computes `(a + b) % 10`, `C'` copies `C`, `Y` computes
`(a_plus_b + c_) % 10`, `raw_input` builds the list `[a, b, c]` and
`raw_output` copies `Y`.  The root samplers (`lambda: random.choice(DIGITS)`)
are modelled by the injected random source of `evaluate`, so the mechanism
entries for roots are never consulted. -/
def addMechanisms : String → List (PVal Int) → PVal Int
  | "A+B", [PVal.atom a, PVal.atom b] => PVal.atom ((a + b) % 10)
  | "C'", [c] => c
  | "Y", [PVal.atom s, PVal.atom c] => PVal.atom ((s + c) % 10)
  | "raw_input", [a, b, c] => PVal.lst [a, b, c]
  | "raw_output", [y] => y
  | _, _ => default

/-- `causal_model = CausalModel(variables, values, parents, mechanisms,
id="Hierarchical addition")` from the notebook; the cached topological order
is the declaration order, which respects all parent edges. -/
def causal_model : CausalModel (PVal Int) :=
  { vars := addVariables
    values := addValues
    parents := addParents
    mechanisms := addMechanisms
    order := addVariables
    id := "Hierarchical addition" }

/-! ### Topological orders and ancestry -/

/-- `TopoFrom par placed rest`: processing the variables of `rest` in order,
after the variables of `placed` have already been processed, respects the
parent relation: each variable's parents are all already placed, and no
variable is processed twice. -/
def TopoFrom (par : String → List String) : List String → List String → Prop
  | _, [] => True
  | placed, v :: rest =>
      (∀ p ∈ par v, p ∈ placed) ∧ v ∉ placed ∧ TopoFrom par (placed ++ [v]) rest

/-- A list of variables is a topological order for `par` when every parent
is processed before each of its children (spec §4.3 "all parents before
child") and no variable repeats. -/
def IsTopo (par : String → List String) (ord : List String) : Prop :=
  TopoFrom par [] ord

instance instDecidableTopoFrom (par : String → List String) :
    (placed rest : List String) → Decidable (TopoFrom par placed rest)
  | _, [] => Decidable.isTrue trivial
  | placed, v :: rest =>
      have : Decidable (TopoFrom par (placed ++ [v]) rest) :=
        instDecidableTopoFrom par (placed ++ [v]) rest
      inferInstanceAs (Decidable (_ ∧ _ ∧ _))

instance (par : String → List String) (ord : List String) : Decidable (IsTopo par ord) :=
  inferInstanceAs (Decidable (TopoFrom par [] ord))

/-- `Anc par a v`: `a` is a (strict) ancestor of `v` in the DAG whose edges
run from each parent to its child — there is a nonempty directed path from
`a` down to `v`. -/
def Anc (par : String → List String) : String → String → Prop :=
  Relation.TransGen (fun a b => a ∈ par b)

/-! ### The neural-network model (notebook cell 10)

The notebook builds the mechanisms of the hidden variables with dict
comprehensions over lambdas:

  `{f'h1{i+1}': lambda a, b, c: l1(torch.FloatTensor([a, b, c])).round()[i].item() for i in range(3)}`

In Python, the three lambdas close over the single comprehension variable
`i` itself (late binding), not over its value at creation time; once the
comprehension completes, `i = 2`, so every one of the three registered
mechanisms indexes component 2.  The same holds for the `h2*` layer.  The
translation below therefore uses the literal index 2 in all `h1*` and `h2*`
mechanisms.  The torch layers are opaque black-box functions (spec §1):
`l1r a b c i` stands for `l1(FloatTensor([a, b, c])).round()[i].item()`,
`l2r` likewise for layer 2, and `l3r x y z` for
`l3(FloatTensor([x, y, z])).round().item()`. -/

/-- Variable list of the neural-network model, in notebook declaration
order. -/
def nnVariables : List String :=
  ["A", "B", "C", "h11", "h12", "h13", "h21", "h22", "h23", "h31",
   "raw_input", "raw_output"]

/-- The `parents` dict of the neural-network model. -/
def nnParents : String → List String
  | "h11" => ["A", "B", "C"]
  | "h12" => ["A", "B", "C"]
  | "h13" => ["A", "B", "C"]
  | "h21" => ["h11", "h12", "h13"]
  | "h22" => ["h11", "h12", "h13"]
  | "h23" => ["h11", "h12", "h13"]
  | "h31" => ["h21", "h22", "h23"]
  | "raw_input" => ["A", "B", "C"]
  | "raw_output" => ["h31"]
  | _ => []

/-- The `mechanisms` dict of the neural-network model.  Every `h1*`
mechanism reads component 2 of the first layer and every `h2*` mechanism
reads component 2 of the second layer, because the comprehension lambdas
all captured the comprehension variable `i`, whose final value is 2 (see
the section comment above). -/
def nnMechanisms {F : Type} (l1r l2r : PVal F → PVal F → PVal F → Nat → F)
    (l3r : PVal F → PVal F → PVal F → F) : String → List (PVal F) → PVal F
  | "h11", [a, b, c] => PVal.atom (l1r a b c 2)
  | "h12", [a, b, c] => PVal.atom (l1r a b c 2)
  | "h13", [a, b, c] => PVal.atom (l1r a b c 2)
  | "h21", [x, y, z] => PVal.atom (l2r x y z 2)
  | "h22", [x, y, z] => PVal.atom (l2r x y z 2)
  | "h23", [x, y, z] => PVal.atom (l2r x y z 2)
  | "h31", [x, y, z] => PVal.atom (l3r x y z)
  | "raw_input", [a, b, c] => PVal.lst [a, b, c]
  | "raw_output", [y] => y
  | _, _ => default

/-- `neural_network = CausalModel(variables, values, parents, mechanisms,
id="Hierarchical addition")` from notebook cell 10 (`values` maps every
variable to `None`), parameterized by the opaque rounded torch layers. -/
def neural_network {F : Type} (l1r l2r : PVal F → PVal F → PVal F → Nat → F)
    (l3r : PVal F → PVal F → PVal F → F) : CausalModel (PVal F) :=
  { vars := nnVariables
    values := fun _ => none
    parents := nnParents
    mechanisms := nnMechanisms l1r l2r l3r
    order := nnVariables
    id := "Hierarchical addition" }

/-! ### Concrete inputs used by the notebook and the spec's test properties -/

/-- `inputs = {'A': 1, 'B': 2, 'C': 3}` from the notebook. -/
def inputsEx : List (String × PVal Int) :=
  [("A", PVal.atom 1), ("B", PVal.atom 2), ("C", PVal.atom 3)]

/-- `{'A': 3, 'B': 1, 'C': 3}`, the counterfactual source inputs for `A+B`
in the notebook's interchange cells. -/
def inputsCf1 : List (String × PVal Int) :=
  [("A", PVal.atom 3), ("B", PVal.atom 1), ("C", PVal.atom 3)]

/-- `{'A': 1, 'B': 2, 'C': 8}`, the counterfactual source inputs for `C'`
in the notebook's multi-target interchange cell. -/
def inputsCf2 : List (String × PVal Int) :=
  [("A", PVal.atom 1), ("B", PVal.atom 2), ("C", PVal.atom 8)]

/-- The spec's example of a cyclic parent map: `A → B → A`. -/
def cycParents : String → List String
  | "A" => ["B"]
  | "B" => ["A"]
  | _ => []

/-- An alternative topological order of the hierarchical-addition model,
used to exercise the ordering guarantee. -/
def ordAlt : List String :=
  ["C", "B", "A", "C'", "A+B", "raw_input", "Y", "raw_output"]

/-! ### Association-list lemmas -/

theorem keys_cons {β : Type} (k : String) (b : β) (t : List (String × β)) :
    keys ((k, b) :: t) = k :: keys t := rfl

theorem keys_append {β : Type} (l₁ l₂ : List (String × β)) :
    keys (l₁ ++ l₂) = keys l₁ ++ keys l₂ := List.map_append _ _ _

theorem lookup_append_of_mem {β : Type} {x : String} {l₁ : List (String × β)}
    (l₂ : List (String × β)) (h : x ∈ keys l₁) :
    List.lookup x (l₁ ++ l₂) = List.lookup x l₁ := by
  induction l₁ with
  | nil => simp [keys] at h
  | cons a t ih =>
    obtain ⟨k, b⟩ := a
    by_cases hx : x = k
    · subst hx; simp [List.lookup]
    · rw [keys_cons, List.mem_cons] at h
      have h' : x ∈ keys t := h.resolve_left hx
      have hxk : (x == k) = false := beq_eq_false_iff_ne.mpr hx
      simp [List.lookup, hxk, ih h']

theorem lookup_append_of_not_mem {β : Type} {x : String} {l₁ : List (String × β)}
    (l₂ : List (String × β)) (h : x ∉ keys l₁) :
    List.lookup x (l₁ ++ l₂) = List.lookup x l₂ := by
  induction l₁ with
  | nil => rfl
  | cons a t ih =>
    obtain ⟨k, b⟩ := a
    rw [keys_cons, List.mem_cons] at h
    push_neg at h
    have hxk : (x == k) = false := beq_eq_false_iff_ne.mpr h.1
    simp [List.lookup, hxk, ih h.2]

theorem lookup_eq_none_iff {β : Type} {x : String} {l : List (String × β)} :
    List.lookup x l = none ↔ x ∉ keys l := by
  induction l with
  | nil => simp [keys]
  | cons a t ih =>
    obtain ⟨k, b⟩ := a
    rw [keys_cons]
    by_cases hx : x = k
    · subst hx; simp [List.lookup]
    · have hxk : (x == k) = false := beq_eq_false_iff_ne.mpr hx
      simp [List.lookup, hxk, ih, hx]

theorem lookup_isSome_of_mem {β : Type} {x : String} {l : List (String × β)}
    (h : x ∈ keys l) : (List.lookup x l).isSome := by
  cases hl : List.lookup x l with
  | none => exact absurd (lookup_eq_none_iff.mp hl) (not_not_intro h)
  | some b => rfl

/-! ### Structural lemmas about the forward pass -/

theorem nodeVal_congr {V : Type} [Inhabited V] (m : CausalModel V)
    (inputs ivn : List (String × V)) (rand : String → V)
    {f g : String → V × Tag} {v : String} (h : ∀ p ∈ m.parents v, f p = g p) :
    nodeVal m inputs ivn rand f v = nodeVal m inputs ivn rand g v := by
  unfold nodeVal
  cases List.lookup v ivn with
  | some x => rfl
  | none =>
    by_cases hr : m.parents v = []
    · simp [hr]
    · simp only [hr, if_false]
      rw [List.map_congr_left h]

theorem keys_evalFrom {V : Type} [Inhabited V] (m : CausalModel V)
    (inputs ivn : List (String × V)) (rand : String → V) :
    ∀ (l : List String) (acc : Assignment V),
      keys (evalFrom m inputs ivn rand l acc) = keys acc ++ l := by
  intro l
  induction l with
  | nil => intro acc; simp [evalFrom]
  | cons v rest ih =>
    intro acc
    rw [evalFrom, ih, keys_append]
    simp [keys]

theorem evalFrom_lookup_of_mem {V : Type} [Inhabited V] (m : CausalModel V)
    (inputs ivn : List (String × V)) (rand : String → V) :
    ∀ (l : List String) (acc : Assignment V) (x : String), x ∈ keys acc →
      List.lookup x (evalFrom m inputs ivn rand l acc) = List.lookup x acc := by
  intro l
  induction l with
  | nil => intro acc x _; rfl
  | cons v rest ih =>
    intro acc x hx
    rw [evalFrom, ih _ x (by rw [keys_append]; exact List.mem_append_left _ hx)]
    exact lookup_append_of_mem _ hx

/-- The central characterization of the forward pass: walking a list of
variables that is topological relative to the already-placed keys, every
walked variable's final entry satisfies the defining equation of the
evaluator — its (value, tag) pair is `nodeVal` applied to the *final*
assignment restricted to its parents. -/
theorem evalFrom_fixpoint {V : Type} [Inhabited V] (m : CausalModel V)
    (inputs ivn : List (String × V)) (rand : String → V) :
    ∀ (rest : List String) (acc : Assignment V),
      TopoFrom m.parents (keys acc) rest → ∀ v ∈ rest,
        List.lookup v (evalFrom m inputs ivn rand rest acc)
          = some (nodeVal m inputs ivn rand
              (fun p => (List.lookup p (evalFrom m inputs ivn rand rest acc)).getD default)
              v) := by
  intro rest
  induction rest with
  | nil => intro acc _ v hv; cases hv
  | cons w rest ih =>
    intro acc hT v hv
    obtain ⟨hpar, hnotin, hT'⟩ := hT
    have hkeys : keys (acc ++ [(w, nodeVal m inputs ivn rand
        (fun p => (List.lookup p acc).getD default) w)]) = keys acc ++ [w] := by
      rw [keys_append]; rfl
    rw [List.mem_cons] at hv
    rcases hv with rfl | hv
    · -- the head variable: its entry was appended this step
      rw [evalFrom]
      have hmem : v ∈ keys (acc ++ [(v, nodeVal m inputs ivn rand
          (fun p => (List.lookup p acc).getD default) v)]) := by
        rw [hkeys]; exact List.mem_append_right _ (List.mem_singleton_self v)
      rw [evalFrom_lookup_of_mem m inputs ivn rand rest _ v hmem,
        lookup_append_of_not_mem _ hnotin]
      have hself : List.lookup v [(v, nodeVal m inputs ivn rand
          (fun p => (List.lookup p acc).getD default) v)]
            = some (nodeVal m inputs ivn rand
              (fun p => (List.lookup p acc).getD default) v) := by
        simp [List.lookup]
      rw [hself]
      congr 1
      apply nodeVal_congr
      intro p hp
      have hpacc : p ∈ keys acc := hpar p hp
      rw [evalFrom_lookup_of_mem m inputs ivn rand rest _ p
        (by rw [hkeys]; exact List.mem_append_left _ hpacc),
        lookup_append_of_mem _ hpacc]
    · -- a later variable: apply the induction hypothesis to the grown prefix
      rw [evalFrom]
      exact ih _ (by rw [hkeys]; exact hT') v hv

/-- Variables outside the walked order have no entry in the result. -/
theorem evaluateWith_lookup_eq_none {V : Type} [Inhabited V] (m : CausalModel V)
    (ord : List String) (inputs ivn : List (String × V)) (rand : String → V)
    {v : String} (hv : v ∉ ord) :
    List.lookup v (evaluateWith m ord inputs ivn rand) = none := by
  rw [lookup_eq_none_iff, evaluateWith, keys_evalFrom]
  simpa [keys] using hv

/-- The fixpoint characterization, specialized to a full forward pass along
a topological order. -/
theorem evaluateWith_fixpoint {V : Type} [Inhabited V] (m : CausalModel V)
    (ord : List String) (inputs ivn : List (String × V)) (rand : String → V)
    (hT : IsTopo m.parents ord) {v : String} (hv : v ∈ ord) :
    List.lookup v (evaluateWith m ord inputs ivn rand)
      = some (nodeVal m inputs ivn rand
          (fun p => (List.lookup p (evaluateWith m ord inputs ivn rand)).getD default)
          v) :=
  evalFrom_fixpoint m inputs ivn rand ord [] hT v hv

/-! ### Induction along a topological order, and acyclicity -/

theorem topo_ind_aux {par : String → List String} {P : String → Prop} :
    ∀ (rest placed : List String), TopoFrom par placed rest →
      (∀ v ∈ rest, (∀ p ∈ par v, P p) → P v) →
      (∀ u ∈ placed, P u) → ∀ v ∈ rest, P v := by
  intro rest
  induction rest with
  | nil => intro placed _ _ _ v hv; cases hv
  | cons w rest ih =>
    intro placed hT hstep hplaced v hv
    obtain ⟨hpar, _, hT'⟩ := hT
    have hw : P w := hstep w (List.mem_cons_self w rest) (fun p hp => hplaced p (hpar p hp))
    rw [List.mem_cons] at hv
    rcases hv with rfl | hv
    · exact hw
    · refine ih (placed ++ [w]) hT' (fun u hu h => hstep u (List.mem_cons_of_mem _ hu) h)
        (fun u hu => ?_) v hv
      rcases List.mem_append.mp hu with hu | hu
      · exact hplaced u hu
      · rw [List.mem_singleton] at hu; subst hu; exact hw

/-- Induction along a topological order: to establish `P` at every walked
variable it is enough to derive `P v` from `P` at all of `v`'s parents. -/
theorem topo_ind {par : String → List String} {P : String → Prop} {ord : List String}
    (hT : IsTopo par ord)
    (hstep : ∀ v ∈ ord, (∀ p ∈ par v, P p) → P v) : ∀ v ∈ ord, P v :=
  topo_ind_aux ord [] hT hstep (fun u hu => absurd hu (List.not_mem_nil u))

/-- A topological order witnesses acyclicity: no variable of the order is an
ancestor of itself, and ancestry is antisymmetric along the order. -/
theorem topo_no_cycle {par : String → List String} {ord : List String}
    (hT : IsTopo par ord) :
    ∀ v ∈ ord, ∀ a, Anc par a v → a ≠ v ∧ ¬ Anc par v a := by
  refine topo_ind hT ?_
  intro v _ hparents a hanc
  cases hanc with
  | single h =>
    constructor
    · intro heq
      have h' : v ∈ par v := heq ▸ h
      exact ((hparents v h') v (Relation.TransGen.single h')).1 rfl
    · intro hva
      exact ((hparents a h) v hva).2 (Relation.TransGen.single h)
  | tail hab hbv =>
    rename_i b
    constructor
    · intro heq
      exact ((hparents b hbv) v (heq ▸ hab)).2 (Relation.TransGen.single hbv)
    · intro hva
      exact ((hparents b hbv) v (Relation.TransGen.trans hva hab)).2
        (Relation.TransGen.single hbv)

/-- The fixpoint characterization for `evaluate` (the walk along the
model's cached topological order). -/
theorem evaluate_fixpoint {V : Type} [Inhabited V] (m : CausalModel V)
    (inputs ivn : List (String × V)) (rand : String → V)
    (hT : IsTopo m.parents m.order) {v : String} (hv : v ∈ m.order) :
    List.lookup v (evaluate m inputs ivn rand)
      = some (nodeVal m inputs ivn rand
          (fun p => (List.lookup p (evaluate m inputs ivn rand)).getD default)
          v) :=
  evaluateWith_fixpoint m m.order inputs ivn rand hT hv

/-- A non-intervened variable's step does not depend on the intervention
set: it computes exactly as in an un-intervened pass. -/
theorem nodeVal_of_not_intervened {V : Type} [Inhabited V] (m : CausalModel V)
    (inputs ivn : List (String × V)) (rand : String → V) (f : String → V × Tag)
    (v : String) (h : List.lookup v ivn = none) :
    nodeVal m inputs ivn rand f v = nodeVal m inputs [] rand f v := by
  unfold nodeVal
  rw [h]
  rfl

/-- A variable that is either intervened, derived, or a root with an
explicit input never consults the random source. -/
theorem nodeVal_rand_irrelevant {V : Type} [Inhabited V] (m : CausalModel V)
    (inputs ivn : List (String × V)) (rand₁ rand₂ : String → V) (f : String → V × Tag)
    (v : String) (h : m.parents v = [] → v ∈ keys inputs) :
    nodeVal m inputs ivn rand₁ f v = nodeVal m inputs ivn rand₂ f v := by
  unfold nodeVal
  cases List.lookup v ivn with
  | some x => rfl
  | none =>
    by_cases hr : m.parents v = []
    · rw [if_pos hr, if_pos hr]
      cases hl : List.lookup v inputs with
      | some x => rfl
      | none => exact absurd (h hr) (lookup_eq_none_iff.mp hl)
    · rw [if_neg hr, if_neg hr]

theorem evalFrom_rand_irrelevant {V : Type} [Inhabited V] (m : CausalModel V)
    (inputs ivn : List (String × V)) (rand₁ rand₂ : String → V) :
    ∀ (l : List String) (acc : Assignment V),
      (∀ v ∈ l, m.parents v = [] → v ∈ keys inputs) →
      evalFrom m inputs ivn rand₁ l acc = evalFrom m inputs ivn rand₂ l acc := by
  intro l
  induction l with
  | nil => intro acc _; rfl
  | cons v rest ih =>
    intro acc h
    rw [evalFrom, evalFrom,
      nodeVal_rand_irrelevant m inputs ivn rand₁ rand₂ _ v (h v (List.mem_cons_self v rest))]
    exact ih _ (fun u hu => h u (List.mem_cons_of_mem _ hu))

/-- Order invariance of the forward pass: two topological orders over the
same variable set produce the same Assignment, entry for entry. -/
theorem evaluateWith_order_invariant {V : Type} [Inhabited V] (m : CausalModel V)
    (ord₁ ord₂ : List String) (inputs ivn : List (String × V)) (rand : String → V)
    (h₁ : IsTopo m.parents ord₁) (h₂ : IsTopo m.parents ord₂)
    (h₁₂ : ∀ x ∈ ord₁, x ∈ ord₂) (h₂₁ : ∀ x ∈ ord₂, x ∈ ord₁) (v : String) :
    List.lookup v (evaluateWith m ord₁ inputs ivn rand)
      = List.lookup v (evaluateWith m ord₂ inputs ivn rand) := by
  have main : ∀ u ∈ ord₁,
      List.lookup u (evaluateWith m ord₁ inputs ivn rand)
        = List.lookup u (evaluateWith m ord₂ inputs ivn rand) := by
    refine topo_ind h₁ ?_
    intro u hu ihp
    rw [evaluateWith_fixpoint m ord₁ inputs ivn rand h₁ hu,
      evaluateWith_fixpoint m ord₂ inputs ivn rand h₂ (h₁₂ u hu)]
    congr 1
    apply nodeVal_congr
    intro p hp
    rw [ihp p hp]
  by_cases hv : v ∈ ord₁
  · exact main v hv
  · rw [evaluateWith_lookup_eq_none m ord₁ inputs ivn rand hv,
      evaluateWith_lookup_eq_none m ord₂ inputs ivn rand (fun h => hv (h₂₁ v h))]

/-- Intervention locality, in its inductive form: a variable none of whose
weak ancestors (itself included) is an intervention target evaluates to the
same (value, tag) entry as in the un-intervened pass. -/
theorem evaluate_local {V : Type} [Inhabited V] (m : CausalModel V)
    (inputs ivn : List (String × V)) (rand : String → V)
    (hT : IsTopo m.parents m.order) :
    ∀ u ∈ m.order,
      (u ∉ keys ivn ∧ ∀ a, Anc m.parents a u → a ∉ keys ivn) →
      List.lookup u (evaluate m inputs ivn rand)
        = List.lookup u (evaluate m inputs [] rand) := by
  refine topo_ind hT ?_
  intro u hu ihp hcond
  obtain ⟨hself, hanc⟩ := hcond
  rw [evaluate_fixpoint m inputs ivn rand hT hu,
    evaluate_fixpoint m inputs [] rand hT hu,
    nodeVal_of_not_intervened m inputs ivn rand _ u (lookup_eq_none_iff.mpr hself)]
  congr 1
  apply nodeVal_congr
  intro p hp
  have hpu : Anc m.parents p u := Relation.TransGen.single hp
  rw [ihp p hp ⟨hanc p hpu, fun a ha => hanc a (Relation.TransGen.trans ha hpu)⟩]

/-! ### Soundness of Kahn's algorithm -/

theorem TopoFrom_snoc {par : String → List String} :
    ∀ (l placed : List String), TopoFrom par placed l →
      ∀ v : String, (∀ p ∈ par v, p ∈ placed ++ l) → v ∉ placed ++ l →
        TopoFrom par placed (l ++ [v]) := by
  intro l
  induction l with
  | nil =>
    intro placed _ v hp hv
    refine ⟨fun p hp' => ?_, fun hm => hv (by simpa using hm), trivial⟩
    simpa using hp p hp'
  | cons w rest ih =>
    intro placed hT v hp hv
    obtain ⟨h1, h2, h3⟩ := hT
    refine ⟨h1, h2, ih (placed ++ [w]) h3 v ?_ ?_⟩
    · intro p hp'
      have := hp p hp'
      simpa [List.append_assoc] using this
    · intro hm
      exact hv (by simpa [List.append_assoc] using hm)

theorem kahnAux_sound {par : String → List String} :
    ∀ (fuel : Nat) (rem placed out : List String),
      kahnAux par fuel rem placed = some out →
      TopoFrom par [] placed → (∀ x ∈ rem, x ∉ placed) → rem.Nodup →
      TopoFrom par [] out ∧ placed ⊆ out ∧ ∀ x ∈ rem, x ∈ out := by
  intro fuel
  induction fuel with
  | zero =>
    intro rem placed out h hT _ _
    cases rem with
    | nil =>
      rw [kahnAux] at h
      injection h with h
      subst h
      exact ⟨hT, fun _ hx => hx, fun x hx => absurd hx (List.not_mem_nil x)⟩
    | cons v0 rest => rw [kahnAux] at h; cases h
  | succ fuel ih =>
    intro rem placed out h hT hd hnd
    cases rem with
    | nil =>
      rw [kahnAux] at h
      injection h with h
      subst h
      exact ⟨hT, fun _ hx => hx, fun x hx => absurd hx (List.not_mem_nil x)⟩
    | cons v0 rest =>
      rw [kahnAux] at h
      cases hf : (v0 :: rest).find? (fun v => (par v).all (fun p => placed.contains p)) with
      | none => rw [hf] at h; cases h
      | some v =>
        rw [hf] at h
        have hvmem : v ∈ v0 :: rest := List.mem_of_find?_eq_some hf
        have hvpred := List.find?_some hf
        have hvpar : ∀ p ∈ par v, p ∈ placed := by
          intro p hp
          have hc := List.all_eq_true.mp hvpred p hp
          exact List.mem_of_elem_eq_true hc
        have hvnot : v ∉ placed := hd v hvmem
        have hT' : TopoFrom par [] (placed ++ [v]) := by
          have := TopoFrom_snoc placed [] hT v
            (fun p hp => by simpa using hvpar p hp) (by simpa using hvnot)
          simpa using this
        have hd' : ∀ x ∈ (v0 :: rest).erase v, x ∉ placed ++ [v] := by
          intro x hx hmem
          have hxr : x ∈ v0 :: rest := List.mem_of_mem_erase hx
          have hxv : x ≠ v := ((List.Nodup.mem_erase_iff hnd).mp hx).1
          rcases List.mem_append.mp hmem with hm | hm
          · exact hd x hxr hm
          · exact hxv (List.mem_singleton.mp hm)
        have hnd' : ((v0 :: rest).erase v).Nodup := hnd.erase v
        obtain ⟨hTout, hplaced, hrem⟩ := ih _ _ _ h hT' hd' hnd'
        refine ⟨hTout, fun x hx => hplaced (List.mem_append_left _ hx), ?_⟩
        intro x hx
        by_cases hxv : x = v
        · subst hxv
          exact hplaced (List.mem_append_right _ (List.mem_singleton_self _))
        · exact hrem x ((List.Nodup.mem_erase_iff hnd).mpr ⟨hxv, hx⟩)

/-! ### The claims -/

/-- C1: interchange refines plain intervention.  In general,
`interchange(inputs, spec)` equals `evaluate(inputs, {t: v_t*})` where each
`v_t*` is the value of `t` in the auxiliary run `evaluate(I_t, ∅)`; on the
hierarchical-addition model, `evaluate({A:1,B:2,C:3}, {"A+B":4})` yields
`Y = 7`, and `interchange({A:1,B:2,C:3}, {"A+B": {A:3,B:1,C:3}})` yields an
Assignment identical to that intervention's result. -/
theorem claim_C1 :
    (∀ (V : Type) [Inhabited V] (m : CausalModel V) (inputs : List (String × V))
        (cfspec : List (String × List (String × V))) (rand : String → V),
        interchange m inputs cfspec rand
          = evaluate m inputs
              (cfspec.map (fun tc =>
                (tc.1, ((List.lookup tc.1 (evaluate m tc.2 [] rand)).getD default).1)))
              rand)
    ∧ (∀ rand : String → PVal Int,
        valOf (evaluate causal_model inputsEx [("A+B", PVal.atom 4)] rand) "Y"
          = some (PVal.atom 7))
    ∧ (∀ rand : String → PVal Int,
        interchange causal_model inputsEx [("A+B", inputsCf1)] rand
          = evaluate causal_model inputsEx [("A+B", PVal.atom 4)] rand) := by
  refine ⟨?_, fun rand => rfl, fun rand => rfl⟩
  intro V _ m inputs cfspec rand
  rfl

/-- C2: multi-target interchange independence.  Each target's auxiliary
pass uses only its own counterfactual inputs;
`interchange({A:1,B:2,C:3}, {"A+B":{A:3,B:1,C:3}, "C'":{A:1,B:2,C:8}})`
yields `A+B = 4`, `C' = 8`, `Y = 2`, identical to the direct two-variable
intervention `{"A+B":4, "C'":8}`. -/
theorem claim_C2 :
    ∀ rand : String → PVal Int,
      interchange causal_model inputsEx [("A+B", inputsCf1), ("C'", inputsCf2)] rand
          = evaluate causal_model inputsEx
              [("A+B", PVal.atom 4), ("C'", PVal.atom 8)] rand
      ∧ valOf (interchange causal_model inputsEx
          [("A+B", inputsCf1), ("C'", inputsCf2)] rand) "A+B" = some (PVal.atom 4)
      ∧ valOf (interchange causal_model inputsEx
          [("A+B", inputsCf1), ("C'", inputsCf2)] rand) "C'" = some (PVal.atom 8)
      ∧ valOf (interchange causal_model inputsEx
          [("A+B", inputsCf1), ("C'", inputsCf2)] rand) "Y" = some (PVal.atom 2) :=
  fun _ => ⟨rfl, rfl, rfl, rfl⟩

/-- C3: intervention locality.  For every model whose cached order is
topological, intervening on `v` leaves the (value, tag) entry of every
ancestor of `v` exactly as in the un-intervened evaluation of the same
inputs. -/
theorem claim_C3 {V : Type} [Inhabited V] (m : CausalModel V)
    (hT : IsTopo m.parents m.order) (inputs : List (String × V)) (rand : String → V)
    (v u : String) (x : V) (hv : v ∈ m.order) (hu : u ∈ m.order)
    (hanc : Anc m.parents u v) :
    List.lookup u (evaluate m inputs [(v, x)] rand)
      = List.lookup u (evaluate m inputs [] rand) := by
  have hnc := topo_no_cycle hT v hv u hanc
  refine evaluate_local m inputs [(v, x)] rand hT u hu ⟨?_, ?_⟩
  · intro hm
    exact hnc.1 (by simpa [keys] using hm)
  · intro a ha hm
    have hav : a = v := by simpa [keys] using hm
    subst hav
    exact hnc.2 ha

theorem claim_C3_witness :
    List.lookup "A" (evaluate causal_model inputsEx [("A+B", PVal.atom 9)]
        (fun _ => default))
      = List.lookup "A" (evaluate causal_model inputsEx [] (fun _ => default)) :=
  claim_C3 causal_model (by decide) inputsEx (fun _ => default) "A+B" "A"
    (PVal.atom 9) (by decide) (by decide) (Relation.TransGen.single (by decide))

/-- C4: determinism.  When every root variable of the walked order has an
explicit input, no sampling occurs: the Assignment does not depend on the
injected random source, so two calls with identical inputs and intervention
agree. -/
theorem claim_C4 {V : Type} [Inhabited V] (m : CausalModel V)
    (inputs ivn : List (String × V)) (rand₁ rand₂ : String → V)
    (hroots : ∀ v ∈ m.order, m.parents v = [] → v ∈ keys inputs) :
    evaluate m inputs ivn rand₁ = evaluate m inputs ivn rand₂ :=
  evalFrom_rand_irrelevant m inputs ivn rand₁ rand₂ m.order [] hroots

theorem claim_C4_witness :
    evaluate causal_model inputsEx [] (fun _ => PVal.atom 0)
      = evaluate causal_model inputsEx [] (fun _ => PVal.atom 5) :=
  claim_C4 causal_model inputsEx [] (fun _ => PVal.atom 0) (fun _ => PVal.atom 5)
    (by decide)

/-- C5: intervening directly on the output.
`evaluate({A:1,B:2,C:3}, {"Y":10})` succeeds, yields `Y = 10` even though
10 is outside `Y`'s declared domain (domains are not enforced in the
default non-strict mode), and `A`, `B`, `C`, `A+B`, `C'` keep their values
from the un-intervened base run. -/
theorem claim_C5 :
    ∀ rand : String → PVal Int,
      valOf (evaluate causal_model inputsEx [("Y", PVal.atom 10)] rand) "Y"
          = some (PVal.atom 10)
      ∧ PVal.atom 10 ∉ (causal_model.values "Y").getD []
      ∧ valOf (evaluate causal_model inputsEx [("Y", PVal.atom 10)] rand) "A"
          = valOf (evaluate causal_model inputsEx [] rand) "A"
      ∧ valOf (evaluate causal_model inputsEx [("Y", PVal.atom 10)] rand) "B"
          = valOf (evaluate causal_model inputsEx [] rand) "B"
      ∧ valOf (evaluate causal_model inputsEx [("Y", PVal.atom 10)] rand) "C"
          = valOf (evaluate causal_model inputsEx [] rand) "C"
      ∧ valOf (evaluate causal_model inputsEx [("Y", PVal.atom 10)] rand) "A+B"
          = valOf (evaluate causal_model inputsEx [] rand) "A+B"
      ∧ valOf (evaluate causal_model inputsEx [("Y", PVal.atom 10)] rand) "C'"
          = valOf (evaluate causal_model inputsEx [] rand) "C'" := by
  intro rand
  refine ⟨rfl, ?_, rfl, rfl, rfl, rfl, rfl⟩
  intro hm
  simp [causal_model, addValues, addVariables, DIGITS, List.mem_map] at hm
  omega

/-- C6: provenance tagging.  In every evaluation along a topological order,
an intervened variable is tagged DIRECT regardless of its parents, and a
non-intervened derived variable's tag is the combination of its parents'
tags (BASE if all BASE; INTERVENED-ONLY if all DIRECT or INTERVENED-ONLY;
MIXED otherwise — the rule implemented by `combineTags`).  Concretely,
under `{"A+B":4}` the tag of `Y` is MIXED, and under `{"Y":10}` the tag of
`raw_output` is INTERVENED-ONLY. -/
theorem claim_C6 :
    (∀ (V : Type) [Inhabited V] (m : CausalModel V), IsTopo m.parents m.order →
      ∀ (inputs ivn : List (String × V)) (rand : String → V), ∀ v ∈ m.order,
        (v ∈ keys ivn → tagOf (evaluate m inputs ivn rand) v = some Tag.DIRECT)
        ∧ (v ∉ keys ivn → m.parents v ≠ [] →
            tagOf (evaluate m inputs ivn rand) v
              = some (combineTags ((m.parents v).map
                  (fun p =>
                    ((List.lookup p (evaluate m inputs ivn rand)).getD default).2)))))
    ∧ (∀ rand : String → PVal Int,
        tagOf (evaluate causal_model inputsEx [("A+B", PVal.atom 4)] rand) "Y"
          = some Tag.MIXED)
    ∧ (∀ rand : String → PVal Int,
        tagOf (evaluate causal_model inputsEx [("Y", PVal.atom 10)] rand) "raw_output"
          = some Tag.INTERVENED_ONLY) := by
  refine ⟨?_, fun rand => rfl, fun rand => rfl⟩
  intro V _ m hT inputs ivn rand v hv
  constructor
  · intro hm
    rw [tagOf, evaluate_fixpoint m inputs ivn rand hT hv]
    have hs := lookup_isSome_of_mem (l := ivn) hm
    cases hl : List.lookup v ivn with
    | none => rw [hl] at hs; cases hs
    | some x =>
      unfold nodeVal
      rw [hl]
      rfl
  · intro hm hder
    rw [tagOf, evaluate_fixpoint m inputs ivn rand hT hv]
    unfold nodeVal
    rw [lookup_eq_none_iff.mpr hm, if_neg hder]
    simp only [List.map_map]
    rfl

theorem claim_C6_witness :
    tagOf (evaluate causal_model inputsEx [("A+B", PVal.atom 4)] (fun _ => default))
        "A+B" = some Tag.DIRECT :=
  (claim_C6.1 (PVal Int) causal_model (by decide) inputsEx [("A+B", PVal.atom 4)]
    (fun _ => default) "A+B" (by decide)).1 (by decide)

/-- C7: cyclic parent maps are rejected.  Whenever the parent→child
relation over the declared variables contains a cycle (some variable is its
own ancestor), construction fails with `CycleError`. -/
theorem claim_C7 {V : Type} [Inhabited V] (vars : List String)
    (values : String → Option (List V)) (parents : String → List String)
    (mechanisms : String → List V → V) (id : String)
    (hnd : vars.Nodup) (hcyc : ∃ v ∈ vars, Anc parents v v) :
    construct vars values parents mechanisms id
      = Except.error ConstructError.CycleError := by
  obtain ⟨v, hv, hanc⟩ := hcyc
  unfold construct
  cases hk : kahnAux parents vars.length vars [] with
  | none => rfl
  | some out =>
    exfalso
    obtain ⟨hTout, _, hcov⟩ := kahnAux_sound vars.length vars [] out hk trivial
      (fun x _ hm => List.not_mem_nil x hm) hnd
    exact (topo_no_cycle hTout v (hcov v hv) v hanc).1 rfl

theorem claim_C7_witness :
    construct (V := PVal Int) ["A", "B"] (fun _ => none) cycParents
        (fun _ _ => default) "cyclic"
      = Except.error ConstructError.CycleError :=
  claim_C7 ["A", "B"] (fun _ => none) cycParents (fun _ _ => default) "cyclic"
    (by decide)
    ⟨"A", by decide,
      Relation.TransGen.head (show "A" ∈ cycParents "B" by decide)
        (Relation.TransGen.single (show "B" ∈ cycParents "A" by decide))⟩

/-- C8: order invariance.  Evaluating along any two topological orders over
the same variable set yields identical Assignments, entry for entry. -/
theorem claim_C8 {V : Type} [Inhabited V] (m : CausalModel V)
    (ord₁ ord₂ : List String) (inputs ivn : List (String × V)) (rand : String → V)
    (h₁ : IsTopo m.parents ord₁) (h₂ : IsTopo m.parents ord₂)
    (h₁₂ : ∀ x ∈ ord₁, x ∈ ord₂) (h₂₁ : ∀ x ∈ ord₂, x ∈ ord₁) :
    ∀ v, List.lookup v (evaluateWith m ord₁ inputs ivn rand)
      = List.lookup v (evaluateWith m ord₂ inputs ivn rand) :=
  fun v => evaluateWith_order_invariant m ord₁ ord₂ inputs ivn rand h₁ h₂ h₁₂ h₂₁ v

theorem claim_C8_witness :
    List.lookup "Y"
        (evaluateWith causal_model causal_model.order inputsEx [] (fun _ => default))
      = List.lookup "Y" (evaluateWith causal_model ordAlt inputsEx [] (fun _ => default)) :=
  claim_C8 causal_model causal_model.order ordAlt inputsEx [] (fun _ => default)
    (by decide) (by decide) (by decide) (by decide) "Y"

/-- C9: the dict-comprehension lambdas of the neural-network model all
closed over the same comprehension variable `i`, equal to 2 once the
comprehension finished, so in every forward pass the three first-layer
mechanisms (and likewise the three second-layer mechanisms) compute the
same component: absent interventions on those variables, the Assignment
satisfies `h11 = h12 = h13` and `h21 = h22 = h23`. -/
theorem claim_C9 (F : Type) (l1r l2r : PVal F → PVal F → PVal F → Nat → F)
    (l3r : PVal F → PVal F → PVal F → F) (inputs ivn : List (String × PVal F))
    (rand : String → PVal F)
    (e1 : "h11" ∉ keys ivn) (e2 : "h12" ∉ keys ivn) (e3 : "h13" ∉ keys ivn)
    (e4 : "h21" ∉ keys ivn) (e5 : "h22" ∉ keys ivn) (e6 : "h23" ∉ keys ivn) :
    valOf (evaluate (neural_network l1r l2r l3r) inputs ivn rand) "h11"
        = valOf (evaluate (neural_network l1r l2r l3r) inputs ivn rand) "h12"
    ∧ valOf (evaluate (neural_network l1r l2r l3r) inputs ivn rand) "h12"
        = valOf (evaluate (neural_network l1r l2r l3r) inputs ivn rand) "h13"
    ∧ valOf (evaluate (neural_network l1r l2r l3r) inputs ivn rand) "h21"
        = valOf (evaluate (neural_network l1r l2r l3r) inputs ivn rand) "h22"
    ∧ valOf (evaluate (neural_network l1r l2r l3r) inputs ivn rand) "h22"
        = valOf (evaluate (neural_network l1r l2r l3r) inputs ivn rand) "h23" := by
  have hT : IsTopo (neural_network l1r l2r l3r).parents
      (neural_network l1r l2r l3r).order := by
    have h : IsTopo nnParents nnVariables := by decide
    exact h
  refine ⟨?_, ?_, ?_, ?_⟩
  · rw [valOf, valOf,
      evaluate_fixpoint (neural_network l1r l2r l3r) inputs ivn rand hT (show "h11" ∈ nnVariables by decide),
      evaluate_fixpoint (neural_network l1r l2r l3r) inputs ivn rand hT (show "h12" ∈ nnVariables by decide)]
    have : nodeVal (neural_network l1r l2r l3r) inputs ivn rand
        (fun p => (List.lookup p
          (evaluate (neural_network l1r l2r l3r) inputs ivn rand)).getD default) "h11"
      = nodeVal (neural_network l1r l2r l3r) inputs ivn rand
        (fun p => (List.lookup p
          (evaluate (neural_network l1r l2r l3r) inputs ivn rand)).getD default) "h12" := by
      unfold nodeVal
      rw [lookup_eq_none_iff.mpr e1, lookup_eq_none_iff.mpr e2]
      rfl
    rw [this]
  · rw [valOf, valOf,
      evaluate_fixpoint (neural_network l1r l2r l3r) inputs ivn rand hT (show "h12" ∈ nnVariables by decide),
      evaluate_fixpoint (neural_network l1r l2r l3r) inputs ivn rand hT (show "h13" ∈ nnVariables by decide)]
    have : nodeVal (neural_network l1r l2r l3r) inputs ivn rand
        (fun p => (List.lookup p
          (evaluate (neural_network l1r l2r l3r) inputs ivn rand)).getD default) "h12"
      = nodeVal (neural_network l1r l2r l3r) inputs ivn rand
        (fun p => (List.lookup p
          (evaluate (neural_network l1r l2r l3r) inputs ivn rand)).getD default) "h13" := by
      unfold nodeVal
      rw [lookup_eq_none_iff.mpr e2, lookup_eq_none_iff.mpr e3]
      rfl
    rw [this]
  · rw [valOf, valOf,
      evaluate_fixpoint (neural_network l1r l2r l3r) inputs ivn rand hT (show "h21" ∈ nnVariables by decide),
      evaluate_fixpoint (neural_network l1r l2r l3r) inputs ivn rand hT (show "h22" ∈ nnVariables by decide)]
    have : nodeVal (neural_network l1r l2r l3r) inputs ivn rand
        (fun p => (List.lookup p
          (evaluate (neural_network l1r l2r l3r) inputs ivn rand)).getD default) "h21"
      = nodeVal (neural_network l1r l2r l3r) inputs ivn rand
        (fun p => (List.lookup p
          (evaluate (neural_network l1r l2r l3r) inputs ivn rand)).getD default) "h22" := by
      unfold nodeVal
      rw [lookup_eq_none_iff.mpr e4, lookup_eq_none_iff.mpr e5]
      rfl
    rw [this]
  · rw [valOf, valOf,
      evaluate_fixpoint (neural_network l1r l2r l3r) inputs ivn rand hT (show "h22" ∈ nnVariables by decide),
      evaluate_fixpoint (neural_network l1r l2r l3r) inputs ivn rand hT (show "h23" ∈ nnVariables by decide)]
    have : nodeVal (neural_network l1r l2r l3r) inputs ivn rand
        (fun p => (List.lookup p
          (evaluate (neural_network l1r l2r l3r) inputs ivn rand)).getD default) "h22"
      = nodeVal (neural_network l1r l2r l3r) inputs ivn rand
        (fun p => (List.lookup p
          (evaluate (neural_network l1r l2r l3r) inputs ivn rand)).getD default) "h23" := by
      unfold nodeVal
      rw [lookup_eq_none_iff.mpr e5, lookup_eq_none_iff.mpr e6]
      rfl
    rw [this]

theorem claim_C9_witness :
    valOf (evaluate (neural_network (F := Int) (fun _ _ _ n => (n : Int))
        (fun _ _ _ n => (n : Int)) (fun _ _ _ => 0)) inputsEx [] (fun _ => default)) "h11"
      = valOf (evaluate (neural_network (F := Int) (fun _ _ _ n => (n : Int))
        (fun _ _ _ n => (n : Int)) (fun _ _ _ => 0)) inputsEx [] (fun _ => default)) "h12" :=
  (claim_C9 Int (fun _ _ _ n => (n : Int)) (fun _ _ _ n => (n : Int)) (fun _ _ _ => 0)
    inputsEx [] (fun _ => default) (by decide) (by decide) (by decide) (by decide)
    (by decide) (by decide)).1

/-- In the hierarchical-addition model, whenever `raw_output` is not an
intervention target its value equals `Y`'s value in the same Assignment:
its mechanism is the identity on its single parent. -/
theorem eval_raw_output_copies_Y (inputs ivn : List (String × PVal Int))
    (rand : String → PVal Int) (h : "raw_output" ∉ keys ivn) :
    valOf (evaluate causal_model inputs ivn rand) "raw_output"
      = valOf (evaluate causal_model inputs ivn rand) "Y" := by
  have hT : IsTopo causal_model.parents causal_model.order := by decide
  rw [valOf, valOf,
    evaluate_fixpoint causal_model inputs ivn rand hT (by decide),
    nodeVal_of_not_intervened causal_model inputs ivn rand _ "raw_output"
      (lookup_eq_none_iff.mpr h)]
  show some ((List.lookup "Y" (evaluate causal_model inputs ivn rand)).getD default).1
      = Option.map Prod.fst (List.lookup "Y" (evaluate causal_model inputs ivn rand))
  cases hY : List.lookup "Y" (evaluate causal_model inputs ivn rand) with
  | none =>
    exfalso
    refine lookup_eq_none_iff.mp hY ?_
    rw [evaluate, evaluateWith, keys_evalFrom]
    decide
  | some pY => rfl

/-- In the hierarchical-addition model, whenever `C'` is not an intervention
target its value equals `C`'s value in the same Assignment: its mechanism is
the identity on its single parent. -/
theorem eval_cprime_copies_C (inputs ivn : List (String × PVal Int))
    (rand : String → PVal Int) (h : "C'" ∉ keys ivn) :
    valOf (evaluate causal_model inputs ivn rand) "C'"
      = valOf (evaluate causal_model inputs ivn rand) "C" := by
  have hT : IsTopo causal_model.parents causal_model.order := by decide
  rw [valOf, valOf,
    evaluate_fixpoint causal_model inputs ivn rand hT (by decide),
    nodeVal_of_not_intervened causal_model inputs ivn rand _ "C'"
      (lookup_eq_none_iff.mpr h)]
  show some ((List.lookup "C" (evaluate causal_model inputs ivn rand)).getD default).1
      = Option.map Prod.fst (List.lookup "C" (evaluate causal_model inputs ivn rand))
  cases hC : List.lookup "C" (evaluate causal_model inputs ivn rand) with
  | none =>
    exfalso
    refine lookup_eq_none_iff.mp hC ?_
    rw [evaluate, evaluateWith, keys_evalFrom]
    decide
  | some pC => rfl

/-- C10: identity-mechanism invariant of the hierarchical-addition model.
In every Assignment produced by `evaluate` or `interchange`, if
`raw_output` is not a target then `raw_output = Y`, and if `C'` is not a
target then `C'` equals `C`'s value in the same Assignment. -/
theorem claim_C10 :
    (∀ (inputs ivn : List (String × PVal Int)) (rand : String → PVal Int),
      ("raw_output" ∉ keys ivn →
        valOf (evaluate causal_model inputs ivn rand) "raw_output"
          = valOf (evaluate causal_model inputs ivn rand) "Y")
      ∧ ("C'" ∉ keys ivn →
        valOf (evaluate causal_model inputs ivn rand) "C'"
          = valOf (evaluate causal_model inputs ivn rand) "C"))
    ∧ (∀ (inputs : List (String × PVal Int))
        (cfspec : List (String × List (String × PVal Int))) (rand : String → PVal Int),
      ("raw_output" ∉ keys cfspec →
        valOf (interchange causal_model inputs cfspec rand) "raw_output"
          = valOf (interchange causal_model inputs cfspec rand) "Y")
      ∧ ("C'" ∉ keys cfspec →
        valOf (interchange causal_model inputs cfspec rand) "C'"
          = valOf (interchange causal_model inputs cfspec rand) "C")) := by
  constructor
  · intro inputs ivn rand
    exact ⟨eval_raw_output_copies_Y inputs ivn rand, eval_cprime_copies_C inputs ivn rand⟩
  · intro inputs cfspec rand
    have hkeys : keys (cfspec.map (fun tc =>
        (tc.1, ((List.lookup tc.1 (evaluate causal_model tc.2 [] rand)).getD default).1)))
        = keys cfspec := by
      rw [keys, keys, List.map_map]
      rfl
    constructor
    · intro h
      show valOf (evaluate causal_model inputs (cfspec.map (fun tc =>
          (tc.1, ((List.lookup tc.1
            (evaluate causal_model tc.2 [] rand)).getD default).1))) rand) "raw_output"
        = valOf (evaluate causal_model inputs (cfspec.map (fun tc =>
          (tc.1, ((List.lookup tc.1
            (evaluate causal_model tc.2 [] rand)).getD default).1))) rand) "Y"
      exact eval_raw_output_copies_Y inputs _ rand (by rw [hkeys]; exact h)
    · intro h
      show valOf (evaluate causal_model inputs (cfspec.map (fun tc =>
          (tc.1, ((List.lookup tc.1
            (evaluate causal_model tc.2 [] rand)).getD default).1))) rand) "C'"
        = valOf (evaluate causal_model inputs (cfspec.map (fun tc =>
          (tc.1, ((List.lookup tc.1
            (evaluate causal_model tc.2 [] rand)).getD default).1))) rand) "C"
      exact eval_cprime_copies_C inputs _ rand (by rw [hkeys]; exact h)

theorem claim_C10_witness :
    valOf (evaluate causal_model inputsEx [("A+B", PVal.atom 4)] (fun _ => default))
        "raw_output"
      = valOf (evaluate causal_model inputsEx [("A+B", PVal.atom 4)]
          (fun _ => default)) "Y" :=
  (claim_C10.1 inputsEx [("A+B", PVal.atom 4)] (fun _ => default)).1 (by decide)

end CausalAbstraction
